import Mathlib

/-!
Shallow embedding of the OSS (Orbital Sharded Storage) coordination plane.

The checked-in sources of the repository contain the Next.js dashboard
(`frontend/src/components/UploadCard.tsx`, `NodeHealth`, `FileList`,
`ShardMap`, the Home page) and the project READMEs; the Python core
(chunking engine, node registry, metadata store, distribution planner,
heartbeat monitor, recovery engine, coordinator) is not part of the
checked-in sources.  Definitions for those components are therefore
modelled from the specification (spec.md §3–§7) and are marked
`Modelled from the spec:` in their doc comments.  The dashboard upload
handler is translated directly from `UploadCard.tsx`.

Bytes are represented as `List Nat`; machine-level byte bounds are
irrelevant to every property treated here.
-/

/-- Modelled from the spec (§4.1): stands in for the SHA-256 digest of a byte
sequence.  The repository's Python core (which computes real SHA-256) is
absent from the checked-in sources; every property proved here depends only
on the digest being a deterministic function of the bytes. -/
def digest (bs : List Nat) : Nat :=
  bs.foldl (fun h b => (h * 257 + b + 1) % 1000000007) 5381

/-- Modelled from the spec (§4.1): one piece produced by `split` — its index
in the file, its bytes, and the digest of those bytes. -/
structure Piece where
  index : Nat
  bytes : List Nat
  checksum : Nat
deriving DecidableEq, Repr

/-- Fuel-indexed splitter: cuts the byte list into consecutive slices of
`cs` bytes (the final slice may be shorter).  The fuel argument is only a
termination device; `bs.length` fuel always suffices when `1 ≤ cs`. -/
def chunkGoF : Nat → Nat → List Nat → List (List Nat)
  | 0, _, _ => []
  | _ + 1, _, [] => []
  | fuel + 1, cs, b :: rest =>
      ((b :: rest).take cs) :: chunkGoF fuel cs ((b :: rest).drop cs)

/-- Modelled from the spec (§4.1): deterministic fixed-size split of a byte
sequence; the final chunk may be shorter; each piece carries its index and
the digest of its bytes.  A zero chunk size is outside the specified domain
and yields no pieces. -/
def split (bs : List Nat) (chunk_size : Nat) : List Piece :=
  if chunk_size = 0 then []
  else (chunkGoF bs.length chunk_size bs).enum.map (fun p => ⟨p.1, p.2, digest p.2⟩)

/-- Modelled from the spec (§4.1): the whole-file digest that `split` also
computes. -/
def wholeFileDigest (bs : List Nat) : Nat := digest bs

/-- Modelled from the spec (§7): checksum mismatch on a fetched chunk,
naming the offending index. -/
inductive IntegrityError where
  | mismatch (index : Nat)
deriving DecidableEq, Repr

/-- Modelled from the spec (§4.1): concatenates the pieces in sequence
order, verifying each piece's checksum before using its bytes; stops at the
first verification failure with an `IntegrityError` naming the offending
index. -/
def reconstruct : List Piece → Except IntegrityError (List Nat)
  | [] => Except.ok []
  | p :: rest =>
      if digest p.bytes = p.checksum then
        match reconstruct rest with
        | Except.ok tail => Except.ok (p.bytes ++ tail)
        | Except.error e => Except.error e
      else Except.error (IntegrityError.mismatch p.index)

/-- Modelled from the spec (§4.3, §7): not enough healthy nodes to satisfy
the replication factor. -/
inductive PlanError where
  | insufficientNodes
deriving DecidableEq, Repr

/-- Insert a node id into an already sorted list, keeping it sorted. -/
def insertSorted (x : Nat) : List Nat → List Nat
  | [] => [x]
  | y :: ys => if x ≤ y then x :: y :: ys else y :: insertSorted x ys

/-- Modelled from the spec (§4.3): the planner's node ordering — the healthy
node list sorted by `node_id` (insertion sort). -/
def sortNodes (l : List Nat) : List Nat := l.foldr insertSorted []

/-- Modelled from the spec (§4.3): round-robin planning.  The healthy node
list is sorted by `node_id`; chunk `i`'s replica set is `rf` consecutive
nodes starting at offset `i mod N`, wrapping around the list.  Fails with
`InsufficientNodesError` when fewer than `rf` healthy nodes exist. -/
def planRoundRobin (numChunks rf : Nat) (healthy : List Nat) :
    Except PlanError (List (List Nat)) :=
  let sorted := sortNodes healthy
  if sorted.length < rf then Except.error PlanError.insufficientNodes
  else Except.ok ((List.range numChunks).map fun i =>
    (sorted.rotate (i % sorted.length)).take rf)

/-- Modelled from the spec (§3): node liveness states. -/
inductive NodeStatus where
  | Healthy | Suspected | Failed
deriving DecidableEq, Repr

/-- Modelled from the spec (§3): replica placement states. -/
inductive PState where
  | Pending | Synced | Stale
deriving DecidableEq, Repr

/-- Modelled from the spec (§3): file states. -/
inductive FileStatus where
  | Active | Degraded | Lost
deriving DecidableEq, Repr

/-- Modelled from the spec (§3): a `File` record of the metadata store.
The name, byte size and whole-file checksum play no role in any claim and
are omitted; `chunk_size` is fixed at upload time and recorded only through
the chunks themselves. -/
structure FileRec where
  file_id : Nat
  total_chunks : Nat
  fstatus : FileStatus
deriving DecidableEq, Repr

/-- Modelled from the spec (§3): a `Chunk` record; `chunk_id` is the unique
id derived from the owning file and the index via the Cantor-style pairing
`Nat.pair`. -/
structure ChunkRec where
  chunk_id : Nat
  file_id : Nat
  index : Nat
  checksum : Nat
deriving DecidableEq, Repr

/-- Modelled from the spec (§3): a `ReplicaPlacement` record. -/
structure PlacementRec where
  chunk_id : Nat
  node_id : Nat
  pstate : PState
deriving DecidableEq, Repr

/-- Modelled from the spec (§3): a `Node` record of the registry. -/
structure NodeRec where
  node_id : Nat
  nstatus : NodeStatus
  last_heartbeat_time : Nat
deriving DecidableEq, Repr

/-- Modelled from the spec (§2–§4): the coordinator-visible system state —
the metadata store (files, chunks, placements), the node registry, and the
system replication factor. -/
structure SysState where
  replication_factor : Nat
  files : List FileRec
  chunks : List ChunkRec
  placements : List PlacementRec
  nodes : List NodeRec
deriving DecidableEq, Repr

def fileIds (s : SysState) : List Nat := s.files.map (fun f => f.file_id)

def chunkIds (s : SysState) : List Nat := s.chunks.map (fun c => c.chunk_id)

/-- Modelled from the spec (§4.2): `Registry.listHealthy()`. -/
def healthyIds (s : SysState) : List Nat :=
  (s.nodes.filter (fun n => n.nstatus == NodeStatus.Healthy)).map (fun n => n.node_id)

/-- All node ids holding any placement of the chunk. -/
def placNodes (ps : List PlacementRec) (cid : Nat) : List Nat :=
  (ps.filter (fun p => p.chunk_id == cid)).map (fun p => p.node_id)

/-- Node ids holding a `Synced` placement of the chunk. -/
def syncedNodesOf (ps : List PlacementRec) (cid : Nat) : List Nat :=
  (ps.filter (fun p => p.chunk_id == cid && p.pstate == PState.Synced)).map
    (fun p => p.node_id)

/-- Whether the registry lists the node and its status is not `Failed`. -/
def nodeIsLive (s : SysState) (nid : Nat) : Bool :=
  s.nodes.any (fun n => n.node_id == nid && !(n.nstatus == NodeStatus.Failed))

/-- Node ids of `Synced` placements of the chunk that sit on non-`Failed`
nodes — the replicas recovery can still read from. -/
def liveSyncedNodes (s : SysState) (cid : Nat) : List Nat :=
  (syncedNodesOf s.placements cid).filter (fun n => nodeIsLive s n)

/-- Modelled from the spec (§4.7, §7): the ways an upload can fail. -/
inductive UploadError where
  | duplicateFile
  | insufficientNodes
  | pushFailed
deriving DecidableEq, Repr

/-- Modelled from the spec (§4.7): choose an alternate healthy node for a
failed replica push — the first sorted healthy node outside the exclusion
set whose push succeeds (`ok i m` says whether pushing chunk `i` to node
`m` is acknowledged). -/
def pickAlt (sorted : List Nat) (i : Nat) (ok : Nat → Nat → Bool)
    (excl : List Nat) : Option Nat :=
  sorted.find? (fun m => !(excl.contains m) && ok i m)

/-- One step of pushing chunk `i`'s replicas: try the planned node, and on
push failure retry against an alternate healthy node, excluding nodes
already chosen for this chunk and the rest of the plan (the planner's
exclusion rule); `none` once a replica is irrecoverably unplaceable. -/
def assignStep (sorted : List Nat) (ok : Nat → Nat → Bool) (i : Nat)
    (planned : List Nat) (acc : Option (List Nat)) (n : Nat) :
    Option (List Nat) :=
  match acc with
  | none => none
  | some got =>
      if ok i n && !(got.contains n) then some (got ++ [n])
      else
        match pickAlt sorted i ok (got ++ planned) with
        | some m => some (got ++ [m])
        | none => none

/-- Modelled from the spec (§4.7): place all of chunk `i`'s replicas,
retrying each failed push against alternates; `none` when some required
replica push fails irrecoverably. -/
def assignChunk (sorted : List Nat) (ok : Nat → Nat → Bool) (i : Nat)
    (planned : List Nat) : Option (List Nat) :=
  planned.foldl (assignStep sorted ok i planned) (some [])

/-- Push every chunk's replicas; `none` as soon as any chunk's replica set
cannot be fully placed (write quorum = replication factor). -/
def assignAll (sorted : List Nat) (ok : Nat → Nat → Bool) :
    List (Nat × List Nat) → Option (List (List Nat))
  | [] => some []
  | (i, planned) :: rest =>
      match assignChunk sorted ok i planned, assignAll sorted ok rest with
      | some got, some rests => some (got :: rests)
      | _, _ => none

/-- Chunk records committed for a newly uploaded file. -/
def buildChunks (fid : Nat) (pieces : List Piece) : List ChunkRec :=
  pieces.map (fun pc => ⟨Nat.pair fid pc.index, fid, pc.index, pc.checksum⟩)

/-- `Synced` placement records committed for a newly uploaded file, chunk
`i0 + k` receiving the `k`-th acknowledged replica set. -/
def buildPlacements (fid : Nat) : Nat → List (List Nat) → List PlacementRec
  | _, [] => []
  | i, ns :: rest =>
      ns.map (fun m => ⟨Nat.pair fid i, m, PState.Synced⟩)
        ++ buildPlacements fid (i + 1) rest

/-- Modelled from the spec (§4.7): `upload` — split, plan, push every
replica (with bounded per-replica retries against alternates), then commit
`File`, `Chunk` and `Placement` records atomically; any irrecoverable push
failure fails the whole upload with nothing committed. -/
def uploadStep (s : SysState) (fid : Nat) (bs : List Nat) (chunk_size : Nat)
    (ok : Nat → Nat → Bool) : Except UploadError SysState :=
  if s.files.any (fun f => f.file_id == fid) then
    Except.error UploadError.duplicateFile
  else
    match planRoundRobin (split bs chunk_size).length s.replication_factor
        (healthyIds s) with
    | Except.error _ => Except.error UploadError.insufficientNodes
    | Except.ok plan =>
        match assignAll (sortNodes (healthyIds s)) ok plan.enum with
        | none => Except.error UploadError.pushFailed
        | some assigns =>
            Except.ok { s with
              files := s.files ++ [⟨fid, (split bs chunk_size).length, FileStatus.Active⟩],
              chunks := s.chunks ++ buildChunks fid (split bs chunk_size),
              placements := s.placements ++ buildPlacements fid 0 assigns }

/-- Modelled from the spec (§4.6): mark the owning file of a chunk
`Degraded` (the no-surviving-replica branch). -/
def markDegraded (s : SysState) (cid : Nat) : SysState :=
  match s.chunks.find? (fun c => c.chunk_id == cid) with
  | none => s
  | some c =>
      { s with files := s.files.map (fun f =>
          if f.file_id == c.file_id then { f with fstatus := FileStatus.Degraded }
          else f) }

/-- Whether the chunk has a `Synced` placement on the given node. -/
def hasSyncedOn (s : SysState) (cid nid : Nat) : Bool :=
  s.placements.any (fun p =>
    p.chunk_id == cid && p.node_id == nid && p.pstate == PState.Synced)

/-- The placement removal predicate used by recovery: keep every placement
except the one of chunk `cid` on node `nid`. -/
def removeP (cid nid : Nat) (p : PlacementRec) : Bool :=
  !(p.chunk_id == cid && p.node_id == nid)

/-- Modelled from the spec (§4.6): recovery work for one at-risk chunk after
node `nid` failed.  A chunk counts as at-risk when its `Synced` replicas on
non-`Failed` nodes number fewer than the replication factor.  With no
surviving replica the owning file is marked `Degraded`; otherwise a
replacement node is picked (excluding nodes already holding the chunk), the
new placement is committed `Synced`, and the stale placement on `nid` is
removed; with no eligible replacement node the chunk is left unchanged. -/
def recoverChunk (nid : Nat) (s : SysState) (cid : Nat) : SysState :=
  if hasSyncedOn s cid nid
      && decide ((liveSyncedNodes s cid).length < s.replication_factor) then
    if (liveSyncedNodes s cid).isEmpty then markDegraded s cid
    else
      match (sortNodes (healthyIds s)).find?
          (fun n => !((placNodes s.placements cid).contains n)) with
      | none => s
      | some repl =>
          { s with placements :=
              (s.placements.filter (removeP cid nid)) ++ [⟨cid, repl, PState.Synced⟩] }
  else s

/-- Chunks that hold a `Synced` placement on the failed node — the result of
`Metadata.listAtRisk` filtered as §4.6 describes. -/
def affectedChunks (s : SysState) (nid : Nat) : List Nat :=
  (s.placements.filter (fun p => p.node_id == nid && p.pstate == PState.Synced)).map
    (fun p => p.chunk_id)

/-- Modelled from the spec (§4.6): the Recovery Engine's work for one
`NodeFailed(nid)` event. -/
def recoverNode (nid : Nat) (s : SysState) : SysState :=
  (affectedChunks s nid).foldl (recoverChunk nid) s

/-- Modelled from the spec (§4.5): events the Heartbeat Monitor emits. -/
inductive HbEvent where
  | NodeFailed (node_id : Nat)
  | NodeRejoined (node_id : Nat)
deriving DecidableEq, Repr

/-- Modelled from the spec (§4.5): the default `timeout_duration`, 30 s. -/
def defaultTimeoutDuration : Nat := 30

/-- Modelled from the spec (§4.5): one periodic monitor evaluation of a
single node.  `Healthy` becomes `Suspected` after one missed heartbeat
interval; `Suspected` becomes `Failed` (emitting `NodeFailed`) once no
heartbeat arrived for `timeout`; a `Failed` node is left untouched by the
monitor (rejoin happens only on a received heartbeat). -/
def monitorEval (interval timeout nid : Nat) (st : NodeStatus)
    (lastHb now : Nat) : NodeStatus × List HbEvent :=
  match st with
  | NodeStatus.Healthy =>
      if interval < now - lastHb then (NodeStatus.Suspected, [])
      else (NodeStatus.Healthy, [])
  | NodeStatus.Suspected =>
      if timeout < now - lastHb then (NodeStatus.Failed, [HbEvent.NodeFailed nid])
      else (NodeStatus.Suspected, [])
  | NodeStatus.Failed => (NodeStatus.Failed, [])

/-- Modelled from the spec (§4.5): the status transition on a received
heartbeat — a `Failed` node rejoins directly to `Healthy` (bypassing
`Suspected`) and `NodeRejoined` is emitted. -/
def heartbeatRecvNode (nid : Nat) (st : NodeStatus) : NodeStatus × List HbEvent :=
  match st with
  | NodeStatus.Failed => (NodeStatus.Healthy, [HbEvent.NodeRejoined nid])
  | _ => (NodeStatus.Healthy, [])

/-- A run of consecutive monitor evaluations (one failure episode: no
heartbeat arrives, so `lastHb` stays fixed), collecting emitted events. -/
def runMonitor (interval timeout nid lastHb : Nat) (st : NodeStatus) :
    List Nat → NodeStatus × List HbEvent
  | [] => (st, [])
  | now :: rest =>
      let fst := monitorEval interval timeout nid st lastHb now
      let rst := runMonitor interval timeout nid lastHb fst.1 rest
      (rst.1, fst.2 ++ rst.2)

/-- Number of `NodeFailed` events in a list. -/
def countNodeFailed (evs : List HbEvent) : Nat :=
  (evs.filter (fun e => match e with
    | HbEvent.NodeFailed _ => true
    | _ => false)).length

/-- Modelled from the spec (§6): the operations of the system an execution
is built from.  `upload` carries the push-acknowledgement oracle `ok`;
`download` and `statusQuery` are read-only. -/
inductive Op where
  | upload (fid : Nat) (bs : List Nat) (chunk_size : Nat) (ok : Nat → Nat → Bool)
  | download (fid : Nat)
  | statusQuery
  | nodeOffline (nid : Nat)
  | nodeOnline (nid : Nat)
  | heartbeatRecv (nid : Nat) (now : Nat)
  | monitorTick (interval timeout now : Nat)
  | recover (nid : Nat)

/-- Modelled from the spec (§4.2): `setStatus` on the registry, serialized
per node id. -/
def setNodeStatus (s : SysState) (nid : Nat) (st : NodeStatus) : SysState :=
  { s with nodes := s.nodes.map (fun n =>
      if n.node_id == nid then { n with nstatus := st } else n) }

/-- Modelled from the spec (§4–§6): the state transition of one operation.
A failed upload commits nothing; reads leave the state untouched; registry
operations touch only node records; recovery follows `recoverNode`. -/
def step (op : Op) (s : SysState) : SysState :=
  match op with
  | Op.upload fid bs cs ok =>
      match uploadStep s fid bs cs ok with
      | Except.ok s1 => s1
      | Except.error _ => s
  | Op.download _ => s
  | Op.statusQuery => s
  | Op.nodeOffline nid => setNodeStatus s nid NodeStatus.Failed
  | Op.nodeOnline nid => setNodeStatus s nid NodeStatus.Healthy
  | Op.heartbeatRecv nid now =>
      { s with nodes := s.nodes.map (fun n =>
          if n.node_id == nid then
            { n with nstatus := (heartbeatRecvNode nid n.nstatus).1,
                     last_heartbeat_time := now }
          else n) }
  | Op.monitorTick interval timeout now =>
      { s with nodes := s.nodes.map (fun n =>
          { n with nstatus :=
              (monitorEval interval timeout n.node_id n.nstatus
                n.last_heartbeat_time now).1 }) }
  | Op.recover nid => recoverNode nid s

/-- An execution: fold the operations over an initial state. -/
def run (ops : List Op) (s : SysState) : SysState :=
  ops.foldl (fun t op => step op t) s

/-- The system invariant (spec §3): file ids are unique; every chunk id is
the pairing of its file id and index and its file exists; chunk ids are
unique; placements reference existing chunks; no two placements of a chunk
share a node; and every chunk of an `Active` file has exactly
`replication_factor` `Synced` placements. -/
def SysInv (s : SysState) : Prop :=
  (fileIds s).Nodup ∧
  (∀ c ∈ s.chunks, c.chunk_id = Nat.pair c.file_id c.index ∧ c.file_id ∈ fileIds s) ∧
  (chunkIds s).Nodup ∧
  (∀ p ∈ s.placements, p.chunk_id ∈ chunkIds s) ∧
  (∀ cid ∈ chunkIds s, (placNodes s.placements cid).Nodup) ∧
  (∀ f ∈ s.files, f.fstatus = FileStatus.Active →
    ∀ c ∈ s.chunks, c.file_id = f.file_id →
      (syncedNodesOf s.placements c.chunk_id).length = s.replication_factor)

/-- Modelled from the spec (§4.7, §6): the shape of `status()`. -/
structure StatusReport where
  healthy_nodes : Nat
  failed_nodes : Nat
  files : List Nat
deriving DecidableEq, Repr

/-- Modelled from the spec (§4.7): `status()` — a read-only snapshot
composed from the Node Registry (healthy/failed counts) and the Metadata
Store (file list). -/
def statusOf (s : SysState) : StatusReport :=
  { healthy_nodes := (s.nodes.filter (fun n => n.nstatus == NodeStatus.Healthy)).length,
    failed_nodes := (s.nodes.filter (fun n => n.nstatus == NodeStatus.Failed)).length,
    files := fileIds s }

/-- Observable effects of the dashboard upload handler
(`frontend/src/components/UploadCard.tsx`): status-text updates and HTTP
POSTs with their form fields. -/
inductive DashAction where
  | setStatusText (text : String)
  | post (path : String) (fields : List (String × String))
deriving DecidableEq, Repr

/-- The `upload` handler of `UploadCard.tsx`, translated action-for-action:
with no selected file it returns at once; otherwise it builds a form with
the single field `file`, sets the status text, POSTs to `/upload`, then
sets the status text again. -/
def uploadHandler (file : Option String) : List DashAction :=
  match file with
  | none => []
  | some f =>
      [ DashAction.setStatusText ("Uploading..."),
        DashAction.post ("/upload") [(("file" : String), f)],
        DashAction.setStatusText ("Uploaded ✅") ]

/-- The POST requests among a list of dashboard actions. -/
def postsOf (acts : List DashAction) : List (String × List (String × String)) :=
  acts.filterMap (fun a => match a with
    | DashAction.post p fs => some (p, fs)
    | _ => none)

/-- The displayed status text after running the actions, starting from
`cur`. -/
def finalStatusText (acts : List DashAction) (cur : String) : String :=
  acts.foldl (fun c a => match a with
    | DashAction.setStatusText t => t
    | _ => c) cur

instance (s : SysState) : Decidable (SysInv s) := by
  unfold SysInv
  exact inferInstance

theorem chunkGoF_flatten (cs : Nat) (hcs : 1 ≤ cs) :
    ∀ (fuel : Nat) (bs : List Nat), bs.length ≤ fuel →
      (chunkGoF fuel cs bs).flatten = bs := by
  intro fuel
  induction fuel with
  | zero =>
      intro bs h
      have hb : bs = [] := List.eq_nil_of_length_eq_zero (Nat.le_zero.mp h)
      subst hb
      rfl
  | succ n ih =>
      intro bs h
      cases bs with
      | nil => rfl
      | cons b rest =>
          have hdrop : ((b :: rest).drop cs).length ≤ n := by
            rw [List.length_drop]
            have : (b :: rest).length = rest.length + 1 := rfl
            omega
          calc (chunkGoF (n + 1) cs (b :: rest)).flatten
              = (b :: rest).take cs ++ (chunkGoF n cs ((b :: rest).drop cs)).flatten := by
                rw [chunkGoF, List.flatten_cons]
            _ = (b :: rest).take cs ++ (b :: rest).drop cs := by rw [ih _ hdrop]
            _ = b :: rest := List.take_append_drop cs (b :: rest)

theorem reconstruct_valid (l : List (List Nat)) :
    ∀ i0, reconstruct ((List.enumFrom i0 l).map (fun p => ⟨p.1, p.2, digest p.2⟩))
      = Except.ok l.flatten := by
  induction l with
  | nil => intro i0; rfl
  | cons c t ih =>
      intro i0
      rw [List.enumFrom_cons, List.map_cons]
      show reconstruct (⟨i0, c, digest c⟩ :: _) = _
      rw [reconstruct, if_pos rfl, ih (i0 + 1), List.flatten_cons]

theorem insertSorted_perm (x : Nat) (l : List Nat) : (insertSorted x l).Perm (x :: l) := by
  induction l with
  | nil => simp [insertSorted]
  | cons y ys ih =>
      rw [insertSorted]
      by_cases h : x ≤ y
      · rw [if_pos h]
      · rw [if_neg h]
        exact List.Perm.trans (List.Perm.cons y ih) (List.Perm.swap x y ys)

theorem sortNodes_perm (l : List Nat) : (sortNodes l).Perm l := by
  induction l with
  | nil => simp [sortNodes]
  | cons a t ih =>
      have : sortNodes (a :: t) = insertSorted a (sortNodes t) := rfl
      rw [this]
      exact (insertSorted_perm a (sortNodes t)).trans (List.Perm.cons a ih)

theorem insertSorted_sorted (x : Nat) (l : List Nat)
    (h : List.Pairwise (fun a b => a ≤ b) l) :
    List.Pairwise (fun a b => a ≤ b) (insertSorted x l) := by
  induction l with
  | nil => simp [insertSorted]
  | cons y ys ih =>
      rw [insertSorted]
      by_cases hxy : x ≤ y
      · rw [if_pos hxy]
        refine List.Pairwise.cons ?_ h
        intro b hb
        rcases List.mem_cons.mp hb with rfl | hb2
        · exact hxy
        · exact le_trans hxy (List.rel_of_pairwise_cons h hb2)
      · rw [if_neg hxy]
        refine List.Pairwise.cons ?_ (ih (List.Pairwise.of_cons h))
        intro b hb
        have hmem : b ∈ x :: ys := (insertSorted_perm x ys).mem_iff.mp hb
        rcases List.mem_cons.mp hmem with rfl | hb2
        · exact Nat.le_of_not_le hxy
        · exact List.rel_of_pairwise_cons h hb2

theorem sortNodes_sorted (l : List Nat) :
    List.Pairwise (fun a b => a ≤ b) (sortNodes l) := by
  induction l with
  | nil => simp [sortNodes]
  | cons a t ih => exact insertSorted_sorted a (sortNodes t) ih

theorem sortNodes_length (l : List Nat) : (sortNodes l).length = l.length :=
  (sortNodes_perm l).length_eq

theorem planRoundRobin_ok (numChunks rf : Nat) (healthy : List Nat)
    (plan : List (List Nat))
    (h : planRoundRobin numChunks rf healthy = Except.ok plan) :
    rf ≤ (sortNodes healthy).length ∧
    plan = (List.range numChunks).map (fun i =>
      ((sortNodes healthy).rotate (i % (sortNodes healthy).length)).take rf) := by
  rw [planRoundRobin] at h
  by_cases hc : (sortNodes healthy).length < rf
  · rw [if_pos hc] at h
    exact absurd h (by simp)
  · rw [if_neg hc] at h
    exact ⟨Nat.le_of_not_lt hc, (Except.ok.inj h).symm⟩

theorem planRoundRobin_mem_length (numChunks rf : Nat) (healthy : List Nat)
    (plan : List (List Nat))
    (h : planRoundRobin numChunks rf healthy = Except.ok plan) :
    plan.length = numChunks ∧ ∀ l ∈ plan, l.length = rf := by
  obtain ⟨hrf, hplan⟩ := planRoundRobin_ok numChunks rf healthy plan h
  subst hplan
  constructor
  · simp
  · intro l hl
    obtain ⟨i, _, rfl⟩ := List.mem_map.mp hl
    rw [List.length_take, List.length_rotate]
    omega

/-- Claim C1: for every byte sequence and every positive chunk size,
reconstructing the ordered pieces produced by `split` yields the original
bytes — `reconstruct (split bs chunk_size) = ok bs` — where `split` is the
deterministic fixed-size split whose final chunk may be shorter and whose
per-piece checksum is the digest of the piece's bytes. -/
theorem c1_split_reconstruct_round_trip (bs : List Nat) (chunk_size : Nat)
    (h : 0 < chunk_size) :
    reconstruct (split bs chunk_size) = Except.ok bs := by
  rw [split, if_neg (Nat.pos_iff_ne_zero.mp h)]
  have he : (chunkGoF bs.length chunk_size bs).enum
      = List.enumFrom 0 (chunkGoF bs.length chunk_size bs) := rfl
  rw [he, reconstruct_valid, chunkGoF_flatten chunk_size h bs.length bs (le_refl _)]

theorem c1_split_reconstruct_round_trip_witness :
    reconstruct (split [1, 2, 3, 4, 5] 2) = Except.ok [1, 2, 3, 4, 5] :=
  c1_split_reconstruct_round_trip [1, 2, 3, 4, 5] 2 (by decide)

/-- Claim C5: `reconstruct` verifies each piece's checksum before using its
bytes; whenever every piece before `p` verifies and `p`'s checksum
mismatches, the result is an `IntegrityError` naming `p`'s index — whatever
pieces follow `p` (so nothing past the first verification failure is
processed, the result being independent of `rest`). -/
theorem c5_reconstruct_first_mismatch (pre rest : List Piece) (p : Piece)
    (hpre : ∀ q ∈ pre, digest q.bytes = q.checksum)
    (hp : digest p.bytes ≠ p.checksum) :
    reconstruct (pre ++ p :: rest) = Except.error (IntegrityError.mismatch p.index) := by
  induction pre with
  | nil =>
      rw [List.nil_append, reconstruct, if_neg hp]
  | cons q t ih =>
      have hq : digest q.bytes = q.checksum := hpre q (List.mem_cons.mpr (Or.inl rfl))
      have ht : ∀ r ∈ t, digest r.bytes = r.checksum := fun r hr =>
        hpre r (List.mem_cons.mpr (Or.inr hr))
      rw [List.cons_append, reconstruct, if_pos hq, ih ht]

theorem c5_reconstruct_first_mismatch_witness :
    reconstruct ([⟨0, [1], digest [1]⟩] ++ ⟨1, [2], 999⟩ :: [⟨2, [3], 0⟩])
      = Except.error (IntegrityError.mismatch 1) :=
  c5_reconstruct_first_mismatch [⟨0, [1], digest [1]⟩] [⟨2, [3], 0⟩] ⟨1, [2], 999⟩
    (by decide) (by decide)

theorem runMonitor_failed (interval timeout nid lastHb : Nat) :
    ∀ ticks, runMonitor interval timeout nid lastHb NodeStatus.Failed ticks
      = (NodeStatus.Failed, []) := by
  intro ticks
  induction ticks with
  | nil => rfl
  | cons now rest ih => simp [runMonitor, monitorEval, ih]

theorem runMonitor_atMostOnce (interval timeout nid lastHb : Nat) :
    ∀ (ticks : List Nat) (st : NodeStatus),
      countNodeFailed (runMonitor interval timeout nid lastHb st ticks).2 ≤ 1 := by
  intro ticks
  induction ticks with
  | nil => intro st; simp [runMonitor, countNodeFailed]
  | cons now rest ih =>
      intro st
      cases st with
      | Healthy =>
          by_cases h : interval < now - lastHb
          · simpa [runMonitor, monitorEval, h, countNodeFailed] using
              ih NodeStatus.Suspected
          · simpa [runMonitor, monitorEval, h, countNodeFailed] using
              ih NodeStatus.Healthy
      | Suspected =>
          by_cases h : timeout < now - lastHb
          · simp [runMonitor, monitorEval, h, countNodeFailed,
              runMonitor_failed]
          · simpa [runMonitor, monitorEval, h, countNodeFailed] using
              ih NodeStatus.Suspected
      | Failed =>
          simp [runMonitor, monitorEval, countNodeFailed, runMonitor_failed]

/-- Claim C7: per-node liveness follows the specified state machine —
`Healthy` becomes `Suspected` after one missed heartbeat interval,
`Suspected` becomes `Failed` once no heartbeat arrived for
`timeout_duration` (emitting `NodeFailed` on that transition, and on no
other monitor transition), the monitor leaves a `Failed` node `Failed`, a
heartbeat received by a `Failed` node moves it directly to `Healthy`
(never via `Suspected`) emitting `NodeRejoined`; and over any run of
monitor evaluations within one failure episode, `NodeFailed` is emitted at
most once. -/
theorem c7_heartbeat_state_machine (interval timeout nid lastHb now : Nat) :
    (interval < now - lastHb →
      monitorEval interval timeout nid NodeStatus.Healthy lastHb now
        = (NodeStatus.Suspected, [])) ∧
    (¬ interval < now - lastHb →
      monitorEval interval timeout nid NodeStatus.Healthy lastHb now
        = (NodeStatus.Healthy, [])) ∧
    (timeout < now - lastHb →
      monitorEval interval timeout nid NodeStatus.Suspected lastHb now
        = (NodeStatus.Failed, [HbEvent.NodeFailed nid])) ∧
    (¬ timeout < now - lastHb →
      monitorEval interval timeout nid NodeStatus.Suspected lastHb now
        = (NodeStatus.Suspected, [])) ∧
    (monitorEval interval timeout nid NodeStatus.Failed lastHb now
      = (NodeStatus.Failed, [])) ∧
    (heartbeatRecvNode nid NodeStatus.Failed
      = (NodeStatus.Healthy, [HbEvent.NodeRejoined nid])) ∧
    (∀ (ticks : List Nat) (st : NodeStatus),
      countNodeFailed (runMonitor interval timeout nid lastHb st ticks).2 ≤ 1) := by
  refine ⟨?_, ?_, ?_, ?_, rfl, rfl, runMonitor_atMostOnce interval timeout nid lastHb⟩
  · intro h; simp [monitorEval, h]
  · intro h; simp [monitorEval, h]
  · intro h; simp [monitorEval, h]
  · intro h; simp [monitorEval, h]

theorem c7_heartbeat_state_machine_witness :
    monitorEval 10 30 7 NodeStatus.Healthy 0 11 = (NodeStatus.Suspected, []) ∧
    monitorEval 10 30 7 NodeStatus.Suspected 0 31 = (NodeStatus.Failed, [HbEvent.NodeFailed 7]) ∧
    countNodeFailed (runMonitor 10 30 7 0 NodeStatus.Healthy [5, 12, 31, 40, 80]).2 ≤ 1 :=
  ⟨(c7_heartbeat_state_machine 10 30 7 0 11).1 (by decide),
   (c7_heartbeat_state_machine 10 30 7 0 31).2.2.1 (by decide),
   (c7_heartbeat_state_machine 10 30 7 0 0).2.2.2.2.2.2 [5, 12, 31, 40, 80] NodeStatus.Healthy⟩

/-- Claim C6: round-robin planning sorts the healthy node list by node id
(the planner's list is a sorted permutation of the healthy list), fails
with `InsufficientNodesError` exactly when the healthy nodes number fewer
than `rf`, and on success assigns chunk `i` the `rf` consecutive sorted
nodes starting at offset `i mod N`, wrapping around the list: element `j`
of chunk `i`'s replica set is sorted node `(i + j) mod N`. -/
theorem c6_round_robin_planning (numChunks rf : Nat) (healthy : List Nat) :
    (sortNodes healthy).Perm healthy ∧
    List.Pairwise (fun a b => a ≤ b) (sortNodes healthy) ∧
    (planRoundRobin numChunks rf healthy = Except.error PlanError.insufficientNodes
      ↔ healthy.length < rf) ∧
    (∀ plan, planRoundRobin numChunks rf healthy = Except.ok plan →
      plan.length = numChunks ∧
      ∀ i, i < numChunks → ∀ j, j < rf →
        (plan.getD i []).getD j 0
          = (sortNodes healthy).getD ((i + j) % healthy.length) 0) := by
  have hlen := sortNodes_length healthy
  refine ⟨sortNodes_perm healthy, sortNodes_sorted healthy, ?_, ?_⟩
  · rw [planRoundRobin]
    by_cases hc : (sortNodes healthy).length < rf
    · rw [if_pos hc]
      simp only [true_iff, iff_true]
      omega
    · rw [if_neg hc]
      constructor
      · intro h; exact absurd h (by simp)
      · intro h; omega
  · intro plan hplan
    obtain ⟨hrf, hform⟩ := planRoundRobin_ok numChunks rf healthy plan hplan
    subst hform
    refine ⟨by simp, ?_⟩
    intro i hi j hj
    set sorted := sortNodes healthy with hsorted
    have hN : sorted.length = healthy.length := hlen
    have hNpos : 0 < sorted.length := by omega
    have hi' : i < (List.range numChunks).length := by simpa using hi
    have hmapped : ((List.range numChunks).map (fun i =>
        (sorted.rotate (i % sorted.length)).take rf)).getD i []
        = (sorted.rotate (i % sorted.length)).take rf := by
      rw [List.getD_eq_getElem _ _ (by simpa using hi), List.getElem_map]
      rw [List.getElem_range]
    rw [hmapped]
    have hjlen : j < ((sorted.rotate (i % sorted.length)).take rf).length := by
      rw [List.length_take, List.length_rotate]
      omega
    have hjrot : j < (sorted.rotate (i % sorted.length)).length := by
      rw [List.length_rotate]; omega
    rw [List.getD_eq_getElem _ _ hjlen, List.getElem_take]
    have hget := List.get_rotate sorted (i % sorted.length) ⟨j, hjrot⟩
    have hgetElem : (sorted.rotate (i % sorted.length))[j]
        = sorted.get ⟨(j + i % sorted.length) % sorted.length,
            Nat.mod_lt _ hNpos⟩ := by
      simpa [List.get_eq_getElem] using hget
    rw [hgetElem, List.get_eq_getElem]
    have hidx : (j + i % sorted.length) % sorted.length
        = (i + j) % sorted.length := by
      rw [Nat.add_mod_mod, Nat.add_comm]
    have hrhs : (i + j) % healthy.length < sorted.length := by
      rw [hN]; exact Nat.mod_lt _ (by omega)
    rw [List.getD_eq_getElem _ _ hrhs]
    congr 1
    show (j + i % sorted.length) % sorted.length = (i + j) % healthy.length
    rw [hidx, hN]

theorem c6_round_robin_planning_witness :
    ¬ (planRoundRobin 3 2 [3, 1, 2] = Except.error PlanError.insufficientNodes) ∧
    (([[1, 2], [2, 3], [3, 1]] : List (List Nat)).getD 1 []).getD 1 0
      = (sortNodes [3, 1, 2]).getD ((1 + 1) % 3) 0 :=
  ⟨fun h => by
      have h2 := (c6_round_robin_planning 3 2 [3, 1, 2]).2.2.1.mp h
      simp at h2,
   ((c6_round_robin_planning 3 2 [3, 1, 2]).2.2.2 [[1, 2], [2, 3], [3, 1]]
      (by rfl)).2 1 (by decide) 1 (by decide)⟩

theorem offline_counts (nodes : List NodeRec) (nid : Nat)
    (hnd : (nodes.map (fun n => n.node_id)).Nodup)
    (hh : ∀ n ∈ nodes, n.nstatus = NodeStatus.Healthy)
    (hmem : nid ∈ nodes.map (fun n => n.node_id)) :
    ((nodes.map (fun n => if n.node_id == nid
        then { n with nstatus := NodeStatus.Failed } else n)).filter
      (fun n => n.nstatus == NodeStatus.Healthy)).length = nodes.length - 1 ∧
    ((nodes.map (fun n => if n.node_id == nid
        then { n with nstatus := NodeStatus.Failed } else n)).filter
      (fun n => n.nstatus == NodeStatus.Failed)).length = 1 := by
  induction nodes with
  | nil => simp at hmem
  | cons m t ih =>
      rw [List.map_cons] at hnd hmem
      have hnd' := List.nodup_cons.mp hnd
      have hmh : m.nstatus = NodeStatus.Healthy := hh m (List.mem_cons.mpr (Or.inl rfl))
      have hh' : ∀ n ∈ t, n.nstatus = NodeStatus.Healthy := fun n hn =>
        hh n (List.mem_cons.mpr (Or.inr hn))
      by_cases hm : m.node_id = nid
      · have hrest : ∀ x ∈ t, x.node_id ≠ nid := by
          intro x hx he
          exact hnd'.1 (List.mem_map.mpr ⟨x, hx, by rw [he, hm]⟩)
        have hmap : t.map (fun n => if n.node_id == nid
            then { n with nstatus := NodeStatus.Failed } else n) = t := by
          conv_rhs => rw [← List.map_id t]
          apply List.map_congr_left
          intro x hx
          rw [if_neg (by simpa using hrest x hx)]
          rfl
        simp only [List.map_cons]
        rw [if_pos (by simpa using hm), hmap]
        constructor
        · rw [List.filter_cons_of_neg (by simp)]
          rw [List.filter_eq_self.mpr (fun x hx => by simp [hh' x hx])]
          simp
        · rw [List.filter_cons_of_pos (by simp)]
          rw [List.filter_eq_nil_iff.mpr (fun x hx => by simp [hh' x hx])]
          rfl
      · have hmem' : nid ∈ t.map (fun n => n.node_id) := by
          rcases List.mem_cons.mp hmem with h1 | h2
          · exact absurd h1.symm hm
          · exact h2
        obtain ⟨ih1, ih2⟩ := ih hnd'.2 hh' hmem'
        simp only [List.map_cons]
        rw [if_neg (by simpa using hm)]
        constructor
        · rw [List.filter_cons_of_pos (by simp [hmh])]
          rw [List.length_cons, ih1]
          have ht : t ≠ [] := by
            intro h
            subst h
            simp at hmem'
          have hpos := List.length_pos.mpr ht
          simp only [List.length_cons]
          omega
        · rw [List.filter_cons_of_neg (by simp [hmh]), ih2]

/-- Claim C8: `status()` is read-only (the `statusQuery` operation leaves
the state unchanged) and returns a snapshot with fields `healthy_nodes`,
`failed_nodes` and `files`, composed from the Node Registry (counts of
currently `Healthy` and `Failed` nodes) and the Metadata Store (the file
list); in particular, marking one of 4 distinct healthy nodes offline makes
`status()` report 3 healthy and 1 failed. -/
theorem c8_status_snapshot (s : SysState) (nid : Nat) :
    step Op.statusQuery s = s ∧
    (statusOf s).healthy_nodes
      = ((s.nodes.filter (fun n => n.nstatus == NodeStatus.Healthy)).length) ∧
    (statusOf s).failed_nodes
      = ((s.nodes.filter (fun n => n.nstatus == NodeStatus.Failed)).length) ∧
    (statusOf s).files = fileIds s ∧
    ((s.nodes.map (fun n => n.node_id)).Nodup →
      s.nodes.length = 4 →
      (∀ n ∈ s.nodes, n.nstatus = NodeStatus.Healthy) →
      nid ∈ s.nodes.map (fun n => n.node_id) →
      (statusOf (step (Op.nodeOffline nid) s)).healthy_nodes = 3 ∧
      (statusOf (step (Op.nodeOffline nid) s)).failed_nodes = 1) := by
  refine ⟨rfl, rfl, rfl, rfl, ?_⟩
  intro hnd hlen hh hmem
  obtain ⟨h1, h2⟩ := offline_counts s.nodes nid hnd hh hmem
  constructor
  · show ((s.nodes.map (fun n => if n.node_id == nid
        then { n with nstatus := NodeStatus.Failed } else n)).filter
      (fun n => n.nstatus == NodeStatus.Healthy)).length = 3
    rw [h1, hlen]
  · show ((s.nodes.map (fun n => if n.node_id == nid
        then { n with nstatus := NodeStatus.Failed } else n)).filter
      (fun n => n.nstatus == NodeStatus.Failed)).length = 1
    rw [h2]

theorem c8_status_snapshot_witness :
    (statusOf (step (Op.nodeOffline 2)
      ⟨2, [], [], [], [⟨1, NodeStatus.Healthy, 0⟩, ⟨2, NodeStatus.Healthy, 0⟩,
        ⟨3, NodeStatus.Healthy, 0⟩, ⟨4, NodeStatus.Healthy, 0⟩]⟩)).healthy_nodes = 3 ∧
    (statusOf (step (Op.nodeOffline 2)
      ⟨2, [], [], [], [⟨1, NodeStatus.Healthy, 0⟩, ⟨2, NodeStatus.Healthy, 0⟩,
        ⟨3, NodeStatus.Healthy, 0⟩, ⟨4, NodeStatus.Healthy, 0⟩]⟩)).failed_nodes = 1 :=
  (c8_status_snapshot
    ⟨2, [], [], [], [⟨1, NodeStatus.Healthy, 0⟩, ⟨2, NodeStatus.Healthy, 0⟩,
      ⟨3, NodeStatus.Healthy, 0⟩, ⟨4, NodeStatus.Healthy, 0⟩]⟩ 2).2.2.2.2
    (by decide) (by decide) (by decide) (by decide)

/-- Claim C9: the dashboard upload handler with no selected file returns
immediately — it emits no action at all, in particular no HTTP request, and
the displayed status text is left unchanged. -/
theorem c9_upload_handler_no_file :
    uploadHandler none = [] ∧
    postsOf (uploadHandler none) = [] ∧
    ∀ cur, finalStatusText (uploadHandler none) cur = cur :=
  ⟨rfl, rfl, fun _ => rfl⟩

/-- Claim C10: for every selected file, the dashboard upload handler sends
exactly one POST, to `/upload`, whose form body holds exactly one field
named `file` (holding the file), so it never supplies `chunk_size`,
`replication_factor` or `strategy` and server-side defaults apply. -/
theorem c10_upload_handler_posts_single_file_field (f : String) :
    postsOf (uploadHandler (some f)) = [(("/upload" : String), [(("file" : String), f)])] ∧
    (postsOf (uploadHandler (some f))).map (fun q => q.2.map Prod.fst)
      = [[("file" : String)]] :=
  ⟨rfl, rfl⟩

theorem placNodes_cons (p : PlacementRec) (t : List PlacementRec) (cid : Nat) :
    placNodes (p :: t) cid
      = if (p.chunk_id == cid) = true then p.node_id :: placNodes t cid
        else placNodes t cid := by
  by_cases h : (p.chunk_id == cid) = true
  · rw [if_pos h]
    simp [placNodes, List.filter_cons, h]
  · rw [if_neg h]
    simp [placNodes, List.filter_cons, h]

theorem syncedNodesOf_cons (p : PlacementRec) (t : List PlacementRec) (cid : Nat) :
    syncedNodesOf (p :: t) cid
      = if (p.chunk_id == cid && p.pstate == PState.Synced) = true
        then p.node_id :: syncedNodesOf t cid
        else syncedNodesOf t cid := by
  by_cases h : (p.chunk_id == cid && p.pstate == PState.Synced) = true
  · rw [if_pos h]
    simp [syncedNodesOf, List.filter_cons, h]
  · rw [if_neg h]
    simp [syncedNodesOf, List.filter_cons, h]

theorem placNodes_append (a b : List PlacementRec) (cid : Nat) :
    placNodes (a ++ b) cid = placNodes a cid ++ placNodes b cid := by
  simp [placNodes, List.filter_append]

theorem syncedNodesOf_append (a b : List PlacementRec) (cid : Nat) :
    syncedNodesOf (a ++ b) cid = syncedNodesOf a cid ++ syncedNodesOf b cid := by
  simp [syncedNodesOf, List.filter_append]

theorem placNodes_eq_nil_of_no_chunk (ps : List PlacementRec) (cid : Nat)
    (h : ∀ p ∈ ps, p.chunk_id ≠ cid) : placNodes ps cid = [] := by
  rw [placNodes, List.filter_eq_nil_iff.mpr (fun p hp => by simp [h p hp])]
  rfl

theorem syncedNodesOf_eq_nil_of_no_chunk (ps : List PlacementRec) (cid : Nat)
    (h : ∀ p ∈ ps, p.chunk_id ≠ cid) : syncedNodesOf ps cid = [] := by
  rw [syncedNodesOf, List.filter_eq_nil_iff.mpr (fun p hp => by simp [h p hp])]
  rfl

theorem syncedNodesOf_sublist (ps : List PlacementRec) (cid : Nat) :
    (syncedNodesOf ps cid).Sublist (placNodes ps cid) := by
  apply List.Sublist.map
  apply List.monotone_filter_right
  intro p hp
  simp only [Bool.and_eq_true] at hp
  exact hp.1

theorem not_mem_of_contains_eq_false {l : List Nat} {a : Nat}
    (h : l.contains a = false) : a ∉ l := by
  intro hm
  have ht : l.contains a = true := List.elem_iff.mpr hm
  rw [ht] at h
  exact Bool.noConfusion h

theorem filter_ne_length (l : List Nat) (a : Nat) (hnd : l.Nodup) (ha : a ∈ l) :
    (l.filter (fun n => !(n == a))).length = l.length - 1 := by
  induction l with
  | nil => simp at ha
  | cons b t ih =>
      have hnd' := List.nodup_cons.mp hnd
      rcases List.mem_cons.mp ha with rfl | hat
      · rw [List.filter_cons_of_neg (by simp)]
        rw [List.filter_eq_self.mpr (fun x hx => by
          have hxa : x ≠ a := fun he => hnd'.1 (he ▸ hx)
          simp [hxa])]
        simp
      · by_cases hba : b = a
        · subst hba
          exact absurd hat hnd'.1
        · rw [List.filter_cons_of_pos (by simp [hba])]
          rw [List.length_cons, ih hnd'.2 hat]
          have hpos := List.length_pos.mpr (List.ne_nil_of_mem hat)
          simp only [List.length_cons]
          omega

theorem removeP_eq_false (cid nid : Nat) (p : PlacementRec)
    (h : ¬ removeP cid nid p = true) : p.chunk_id = cid ∧ p.node_id = nid := by
  simp only [removeP, Bool.not_eq_true', Bool.not_eq_false, Bool.and_eq_true,
    beq_iff_eq] at h
  exact h

theorem syncedNodesOf_filter_removeP_ne (ps : List PlacementRec) (cid nid x : Nat)
    (hx : x ≠ cid) :
    syncedNodesOf (ps.filter (removeP cid nid)) x = syncedNodesOf ps x := by
  induction ps with
  | nil => rfl
  | cons p t ih =>
      rw [List.filter_cons]
      by_cases hr : removeP cid nid p = true
      · rw [if_pos hr, syncedNodesOf_cons, syncedNodesOf_cons, ih]
      · rw [if_neg hr]
        have hpc := removeP_eq_false cid nid p hr
        rw [syncedNodesOf_cons, if_neg (by simp [hpc.1, Ne.symm hx])]
        exact ih

theorem placNodes_filter_removeP_ne (ps : List PlacementRec) (cid nid x : Nat)
    (hx : x ≠ cid) :
    placNodes (ps.filter (removeP cid nid)) x = placNodes ps x := by
  induction ps with
  | nil => rfl
  | cons p t ih =>
      rw [List.filter_cons]
      by_cases hr : removeP cid nid p = true
      · rw [if_pos hr, placNodes_cons, placNodes_cons, ih]
      · rw [if_neg hr]
        have hpc := removeP_eq_false cid nid p hr
        rw [placNodes_cons, if_neg (by simp [hpc.1, Ne.symm hx])]
        exact ih

theorem syncedNodesOf_filter_removeP_eq (ps : List PlacementRec) (cid nid : Nat) :
    syncedNodesOf (ps.filter (removeP cid nid)) cid
      = (syncedNodesOf ps cid).filter (fun n => !(n == nid)) := by
  induction ps with
  | nil => rfl
  | cons p t ih =>
      rw [List.filter_cons]
      by_cases hr : removeP cid nid p = true
      · rw [if_pos hr, syncedNodesOf_cons, syncedNodesOf_cons]
        by_cases hsel : (p.chunk_id == cid && p.pstate == PState.Synced) = true
        · rw [if_pos hsel, if_pos hsel, List.filter_cons]
          have hc : p.chunk_id = cid := by
            simp only [Bool.and_eq_true, beq_iff_eq] at hsel
            exact hsel.1
          have hnn : ¬ p.node_id = nid := by
            intro he
            rw [removeP, hc, he] at hr
            simp at hr
          rw [if_pos (by simp [hnn]), ih]
        · rw [if_neg hsel, if_neg hsel, ih]
      · rw [if_neg hr]
        have hpc := removeP_eq_false cid nid p hr
        rw [syncedNodesOf_cons]
        by_cases hsel : (p.chunk_id == cid && p.pstate == PState.Synced) = true
        · rw [if_pos hsel, List.filter_cons, if_neg (by simp [hpc.2])]
          exact ih
        · rw [if_neg hsel]
          exact ih

theorem placNodes_filter_removeP_eq (ps : List PlacementRec) (cid nid : Nat) :
    placNodes (ps.filter (removeP cid nid)) cid
      = (placNodes ps cid).filter (fun n => !(n == nid)) := by
  induction ps with
  | nil => rfl
  | cons p t ih =>
      rw [List.filter_cons]
      by_cases hr : removeP cid nid p = true
      · rw [if_pos hr, placNodes_cons, placNodes_cons]
        by_cases hsel : (p.chunk_id == cid) = true
        · rw [if_pos hsel, if_pos hsel, List.filter_cons]
          have hc : p.chunk_id = cid := by simpa using hsel
          have hnn : ¬ p.node_id = nid := by
            intro he
            rw [removeP, hc, he] at hr
            simp at hr
          rw [if_pos (by simp [hnn]), ih]
        · rw [if_neg hsel, if_neg hsel, ih]
      · rw [if_neg hr]
        have hpc := removeP_eq_false cid nid p hr
        rw [placNodes_cons]
        by_cases hsel : (p.chunk_id == cid) = true
        · rw [if_pos hsel, List.filter_cons, if_neg (by simp [hpc.2])]
          exact ih
        · rw [if_neg hsel]
          exact ih

theorem mem_syncedNodesOf_of_hasSyncedOn (s : SysState) (cid nid : Nat)
    (h : hasSyncedOn s cid nid = true) : nid ∈ syncedNodesOf s.placements cid := by
  rw [hasSyncedOn, List.any_eq_true] at h
  obtain ⟨p, hp, hb⟩ := h
  simp only [Bool.and_eq_true, beq_iff_eq] at hb
  exact List.mem_map.mpr ⟨p, List.mem_filter.mpr ⟨hp, by simp [hb.1.1, hb.2]⟩, hb.1.2⟩

theorem chunk_mem_of_hasSyncedOn (s : SysState) (cid nid : Nat)
    (hwf : ∀ p ∈ s.placements, p.chunk_id ∈ chunkIds s)
    (h : hasSyncedOn s cid nid = true) : cid ∈ chunkIds s := by
  rw [hasSyncedOn, List.any_eq_true] at h
  obtain ⟨p, hp, hb⟩ := h
  simp only [Bool.and_eq_true, beq_iff_eq] at hb
  exact hb.1.1 ▸ hwf p hp

theorem buildPlacements_mem (fid : Nat) :
    ∀ (outs : List (List Nat)) (i0 : Nat) (p : PlacementRec),
      p ∈ buildPlacements fid i0 outs →
      p.pstate = PState.Synced ∧ ∃ j, j < outs.length ∧ p.chunk_id = Nat.pair fid (i0 + j) := by
  intro outs
  induction outs with
  | nil => intro i0 p hp; simp [buildPlacements] at hp
  | cons ns rest ih =>
      intro i0 p hp
      rw [buildPlacements] at hp
      rcases List.mem_append.mp hp with h1 | h2
      · obtain ⟨m, hm, rfl⟩ := List.mem_map.mp h1
        exact ⟨rfl, 0, by simp, by simp⟩
      · obtain ⟨hs, j, hj, hc⟩ := ih (i0 + 1) p h2
        refine ⟨hs, j + 1, by simpa using hj, ?_⟩
        rw [hc]
        congr 1
        omega

theorem placNodes_map_mk_self (ns : List Nat) (cid : Nat) :
    placNodes (ns.map (fun m => (⟨cid, m, PState.Synced⟩ : PlacementRec))) cid = ns := by
  induction ns with
  | nil => rfl
  | cons m t ih =>
      rw [List.map_cons, placNodes_cons, if_pos (by simp), ih]

theorem placNodes_map_mk_ne (ns : List Nat) (cid cid' : Nat) (h : cid ≠ cid') :
    placNodes (ns.map (fun m => (⟨cid, m, PState.Synced⟩ : PlacementRec))) cid' = [] := by
  induction ns with
  | nil => rfl
  | cons m t ih =>
      rw [List.map_cons, placNodes_cons, if_neg (by simp [h]), ih]

theorem placNodes_buildPlacements_at (fid : Nat) :
    ∀ (outs : List (List Nat)) (i0 j : Nat), j < outs.length →
      placNodes (buildPlacements fid i0 outs) (Nat.pair fid (i0 + j)) = outs.getD j [] := by
  intro outs
  induction outs with
  | nil => intro i0 j hj; simp at hj
  | cons ns rest ih =>
      intro i0 j hj
      rw [buildPlacements, placNodes_append]
      cases j with
      | zero =>
          have hhead := placNodes_map_mk_self ns (Nat.pair fid i0)
          have htail : placNodes (buildPlacements fid (i0 + 1) rest)
              (Nat.pair fid (i0 + 0)) = [] := by
            apply placNodes_eq_nil_of_no_chunk
            intro p hp he
            obtain ⟨-, j2, hj2, hc⟩ := buildPlacements_mem fid rest (i0 + 1) p hp
            rw [hc] at he
            have := (Nat.pair_eq_pair.mp he).2
            omega
          rw [htail, List.append_nil]
          simpa using hhead
      | succ j2 =>
          have hhead : placNodes (ns.map (fun m =>
              (⟨Nat.pair fid i0, m, PState.Synced⟩ : PlacementRec)))
              (Nat.pair fid (i0 + (j2 + 1))) = [] := by
            apply placNodes_map_mk_ne
            intro he
            have := (Nat.pair_eq_pair.mp he).2
            omega
          have harg : i0 + (j2 + 1) = (i0 + 1) + j2 := by omega
          rw [hhead, List.nil_append, harg, ih (i0 + 1) j2 (by simpa using hj)]
          simp

theorem syncedNodesOf_eq_placNodes_of_allSynced (ps : List PlacementRec)
    (h : ∀ p ∈ ps, p.pstate = PState.Synced) (cid : Nat) :
    syncedNodesOf ps cid = placNodes ps cid := by
  rw [syncedNodesOf, placNodes]
  congr 1
  apply List.filter_congr
  intro p hp
  simp [h p hp]

theorem syncedNodesOf_buildPlacements_at (fid : Nat) (outs : List (List Nat))
    (i0 j : Nat) (hj : j < outs.length) :
    syncedNodesOf (buildPlacements fid i0 outs) (Nat.pair fid (i0 + j)) = outs.getD j [] := by
  rw [syncedNodesOf_eq_placNodes_of_allSynced _ (fun p hp =>
    (buildPlacements_mem fid outs i0 p hp).1)]
  exact placNodes_buildPlacements_at fid outs i0 j hj

theorem split_indices (bs : List Nat) (cs : Nat) :
    (split bs cs).map (fun pc => pc.index) = List.range (split bs cs).length := by
  rw [split]
  by_cases h : cs = 0
  · rw [if_pos h]
    rfl
  · rw [if_neg h]
    rw [List.map_map]
    have hcomp : ((fun pc : Piece => pc.index) ∘
        (fun p : Nat × List Nat => (⟨p.1, p.2, digest p.2⟩ : Piece)))
        = Prod.fst := rfl
    rw [hcomp, List.enum_map_fst]
    congr 1
    simp

theorem old_placements_no_new_cid (s : SysState) (fid : Nat)
    (hwfC : ∀ c ∈ s.chunks, c.chunk_id = Nat.pair c.file_id c.index ∧ c.file_id ∈ fileIds s)
    (hwfP : ∀ p ∈ s.placements, p.chunk_id ∈ chunkIds s)
    (hfresh : fid ∉ fileIds s) :
    ∀ p ∈ s.placements, ∀ j, p.chunk_id ≠ Nat.pair fid j := by
  intro p hp j he
  obtain ⟨c, hc, hcc⟩ := List.mem_map.mp (hwfP p hp)
  obtain ⟨hpair, hfmem⟩ := hwfC c hc
  rw [← hcc, hpair] at he
  exact hfresh ((Nat.pair_eq_pair.mp he).1 ▸ hfmem)

theorem old_chunks_no_new_cid (s : SysState) (fid : Nat)
    (hwfC : ∀ c ∈ s.chunks, c.chunk_id = Nat.pair c.file_id c.index ∧ c.file_id ∈ fileIds s)
    (hfresh : fid ∉ fileIds s) :
    ∀ c ∈ s.chunks, ∀ j, c.chunk_id ≠ Nat.pair fid j := by
  intro c hc j he
  obtain ⟨hpair, hfmem⟩ := hwfC c hc
  rw [hpair] at he
  exact hfresh ((Nat.pair_eq_pair.mp he).1 ▸ hfmem)

theorem mem_enumFrom_snd {α : Type} :
    ∀ (l : List α) (i0 : Nat) (pr : Nat × α), pr ∈ List.enumFrom i0 l → pr.2 ∈ l := by
  intro l
  induction l with
  | nil => intro i0 pr hpr; simp [List.enumFrom] at hpr
  | cons a t ih =>
      intro i0 pr hpr
      rw [List.enumFrom_cons] at hpr
      rcases List.mem_cons.mp hpr with rfl | h2
      · exact List.mem_cons.mpr (Or.inl rfl)
      · exact List.mem_cons.mpr (Or.inr (ih (i0 + 1) pr h2))

theorem pickAlt_not_mem (sorted : List Nat) (i : Nat) (ok : Nat → Nat → Bool)
    (excl : List Nat) (m : Nat) (h : pickAlt sorted i ok excl = some m) :
    m ∉ excl := by
  have hp := List.find?_some h
  simp only [Bool.and_eq_true] at hp
  have : excl.contains m = false := by
    cases hc : excl.contains m
    · rfl
    · rw [hc] at hp
      simp at hp
  exact not_mem_of_contains_eq_false this

theorem assignStep_fold (sorted : List Nat) (ok : Nat → Nat → Bool) (i : Nat)
    (planned : List Nat) :
    ∀ (l : List Nat) (got out : List Nat),
      l.foldl (assignStep sorted ok i planned) (some got) = some out →
      got.Nodup → out.Nodup ∧ out.length = got.length + l.length := by
  intro l
  induction l with
  | nil =>
      intro got out h hnd
      rw [List.foldl_nil] at h
      obtain rfl := Option.some.inj h
      exact ⟨hnd, by simp⟩
  | cons n t ih =>
      intro got out h hnd
      rw [List.foldl_cons] at h
      by_cases hok : (ok i n && !(got.contains n)) = true
      · rw [show assignStep sorted ok i planned (some got) n = some (got ++ [n]) by
            rw [assignStep, if_pos hok]] at h
        have hnn : n ∉ got := by
          simp only [Bool.and_eq_true] at hok
          have : got.contains n = false := by
            cases hc : got.contains n
            · rfl
            · rw [hc] at hok
              simp at hok
          exact not_mem_of_contains_eq_false this
        have hnd2 : (got ++ [n]).Nodup := by
          rw [List.nodup_append]
          refine ⟨hnd, List.nodup_singleton n, ?_⟩
          intro a ha hb
          rw [List.mem_singleton] at hb
          exact hnn (hb ▸ ha)
        obtain ⟨h1, h2⟩ := ih (got ++ [n]) out h hnd2
        refine ⟨h1, ?_⟩
        rw [h2, List.length_append]
        simp only [List.length_singleton, List.length_cons, List.length_nil]
        omega
      · cases hf : pickAlt sorted i ok (got ++ planned) with
        | none =>
            rw [show assignStep sorted ok i planned (some got) n = none by
                rw [assignStep, if_neg hok, hf]] at h
            have : (none : Option (List Nat)) = some out → False := by simp
            exact absurd (by
              have hall : ∀ (u : List Nat),
                  u.foldl (assignStep sorted ok i planned) none = none := by
                intro u
                induction u with
                | nil => rfl
                | cons v w ihw => rw [List.foldl_cons]; exact ihw
              rw [hall t] at h
              exact h) (by simp)
        | some m =>
            rw [show assignStep sorted ok i planned (some got) n = some (got ++ [m]) by
                rw [assignStep, if_neg hok, hf]] at h
            have hmn : m ∉ got := fun hmem =>
              pickAlt_not_mem sorted i ok (got ++ planned) m hf
                (List.mem_append.mpr (Or.inl hmem))
            have hnd2 : (got ++ [m]).Nodup := by
              rw [List.nodup_append]
              refine ⟨hnd, List.nodup_singleton m, ?_⟩
              intro a ha hb
              rw [List.mem_singleton] at hb
              exact hmn (hb ▸ ha)
            obtain ⟨h1, h2⟩ := ih (got ++ [m]) out h hnd2
            refine ⟨h1, ?_⟩
            rw [h2, List.length_append]
            simp only [List.length_singleton, List.length_cons, List.length_nil]
            omega

theorem assignChunk_some (sorted : List Nat) (ok : Nat → Nat → Bool) (i : Nat)
    (planned out : List Nat) (h : assignChunk sorted ok i planned = some out) :
    out.Nodup ∧ out.length = planned.length := by
  have := assignStep_fold sorted ok i planned planned [] out h List.nodup_nil
  simpa using this

theorem assignAll_some (sorted : List Nat) (ok : Nat → Nat → Bool) :
    ∀ (l : List (Nat × List Nat)) (outs : List (List Nat)),
      assignAll sorted ok l = some outs →
      outs.length = l.length ∧
      ∀ out ∈ outs, ∃ pr ∈ l, assignChunk sorted ok pr.1 pr.2 = some out := by
  intro l
  induction l with
  | nil =>
      intro outs h
      rw [assignAll] at h
      obtain rfl := Option.some.inj h
      exact ⟨rfl, by simp⟩
  | cons pr rest ih =>
      intro outs h
      obtain ⟨i, planned⟩ := pr
      rw [assignAll] at h
      cases h1 : assignChunk sorted ok i planned with
      | none => rw [h1] at h; simp at h
      | some got =>
          cases h2 : assignAll sorted ok rest with
          | none => rw [h1, h2] at h; simp at h
          | some rests =>
              rw [h1, h2] at h
              obtain rfl := Option.some.inj h
              obtain ⟨ihl, ihm⟩ := ih rests h2
              refine ⟨by simp [ihl], ?_⟩
              intro out hout
              rcases List.mem_cons.mp hout with rfl | hrest
              · exact ⟨(i, planned), List.mem_cons.mpr (Or.inl rfl), h1⟩
              · obtain ⟨pr2, hpr2, hch⟩ := ihm out hrest
                exact ⟨pr2, List.mem_cons.mpr (Or.inr hpr2), hch⟩

theorem inv_upload_commit (s : SysState) (fid : Nat) (pieces : List Piece)
    (assigns : List (List Nat))
    (hInv : SysInv s)
    (hfresh : fid ∉ fileIds s)
    (hidx : pieces.map (fun pc => pc.index) = List.range pieces.length)
    (houtlen : assigns.length = pieces.length)
    (hout : ∀ out ∈ assigns, out.Nodup ∧ out.length = s.replication_factor) :
    SysInv { s with
      files := s.files ++ [⟨fid, pieces.length, FileStatus.Active⟩],
      chunks := s.chunks ++ buildChunks fid pieces,
      placements := s.placements ++ buildPlacements fid 0 assigns } := by
  obtain ⟨h1, h2, h3, h4, h5, h6⟩ := hInv
  have hpcIdx : ∀ pc ∈ pieces, pc.index < pieces.length := by
    intro pc hpc
    have hm : pc.index ∈ pieces.map (fun q => q.index) :=
      List.mem_map.mpr ⟨pc, hpc, rfl⟩
    rw [hidx] at hm
    exact List.mem_range.mp hm
  have hnewIds : (buildChunks fid pieces).map (fun c => c.chunk_id)
      = (List.range pieces.length).map (fun j => Nat.pair fid j) := by
    rw [buildChunks, List.map_map]
    rw [show ((fun c : ChunkRec => c.chunk_id) ∘ (fun pc : Piece =>
        (⟨Nat.pair fid pc.index, fid, pc.index, pc.checksum⟩ : ChunkRec)))
      = ((fun j => Nat.pair fid j) ∘ (fun pc : Piece => pc.index)) from rfl]
    rw [← List.map_map, hidx]
  have hpairInj : Function.Injective (fun j => Nat.pair fid j) := by
    intro a b hab
    exact (Nat.pair_eq_pair.mp hab).2
  have hF : fileIds { s with
      files := s.files ++ [⟨fid, pieces.length, FileStatus.Active⟩],
      chunks := s.chunks ++ buildChunks fid pieces,
      placements := s.placements ++ buildPlacements fid 0 assigns }
      = fileIds s ++ [fid] := by
    simp [fileIds]
  have hC : chunkIds { s with
      files := s.files ++ [⟨fid, pieces.length, FileStatus.Active⟩],
      chunks := s.chunks ++ buildChunks fid pieces,
      placements := s.placements ++ buildPlacements fid 0 assigns }
      = chunkIds s ++ (buildChunks fid pieces).map (fun c => c.chunk_id) := by
    simp [chunkIds]
  refine ⟨?_, ?_, ?_, ?_, ?_, ?_⟩
  · rw [hF, List.nodup_append]
    refine ⟨h1, List.nodup_singleton fid, ?_⟩
    intro a ha hb
    exact hfresh ((List.mem_singleton.mp hb) ▸ ha)
  · intro c hc
    rcases List.mem_append.mp hc with hold | hnew
    · obtain ⟨hpair, hfm⟩ := h2 c hold
      refine ⟨hpair, ?_⟩
      rw [hF]
      exact List.mem_append.mpr (Or.inl hfm)
    · obtain ⟨pc, hpc, rfl⟩ := List.mem_map.mp hnew
      refine ⟨rfl, ?_⟩
      rw [hF]
      exact List.mem_append.mpr (Or.inr (List.mem_singleton.mpr rfl))
  · rw [hC, List.nodup_append]
    refine ⟨h3, ?_, ?_⟩
    · rw [hnewIds]
      exact List.Nodup.map hpairInj (List.nodup_range _)
    · intro a ha hb
      rw [hnewIds] at hb
      obtain ⟨j, hj, rfl⟩ := List.mem_map.mp hb
      obtain ⟨c, hcm, hcc⟩ := List.mem_map.mp ha
      exact old_chunks_no_new_cid s fid h2 hfresh c hcm j hcc
  · intro p hp
    rw [hC]
    rcases List.mem_append.mp hp with hold | hnew
    · exact List.mem_append.mpr (Or.inl (h4 p hold))
    · obtain ⟨-, j, hj, hcid⟩ := buildPlacements_mem fid assigns 0 p hnew
      refine List.mem_append.mpr (Or.inr ?_)
      rw [hnewIds]
      refine List.mem_map.mpr ⟨j, List.mem_range.mpr (by omega), ?_⟩
      rw [hcid]
      congr 1
      omega
  · intro cid hcid
    rw [hC] at hcid
    have hP : placNodes (s.placements ++ buildPlacements fid 0 assigns) cid
        = placNodes s.placements cid ++ placNodes (buildPlacements fid 0 assigns) cid :=
      placNodes_append _ _ _
    rcases List.mem_append.mp hcid with hold | hnew
    · have hnil : placNodes (buildPlacements fid 0 assigns) cid = [] := by
        apply placNodes_eq_nil_of_no_chunk
        intro p hp he
        obtain ⟨-, j, hj, hcid2⟩ := buildPlacements_mem fid assigns 0 p hp
        obtain ⟨c, hcm, hcc⟩ := List.mem_map.mp hold
        exact old_chunks_no_new_cid s fid h2 hfresh c hcm (0 + j)
          (by rw [hcc, ← he, hcid2])
      rw [hP, hnil, List.append_nil]
      exact h5 cid hold
    · rw [hnewIds] at hnew
      obtain ⟨j, hjr, rfl⟩ := List.mem_map.mp hnew
      have hj : j < assigns.length := by
        rw [houtlen]
        exact List.mem_range.mp hjr
      have hnilold : placNodes s.placements (Nat.pair fid j) = [] := by
        apply placNodes_eq_nil_of_no_chunk
        intro p hp he
        exact old_placements_no_new_cid s fid h2 h4 hfresh p hp j he
      rw [hP, hnilold, List.nil_append]
      have hbp := placNodes_buildPlacements_at fid assigns 0 j hj
      rw [Nat.zero_add] at hbp
      rw [hbp]
      have hmm : assigns.getD j [] ∈ assigns := by
        rw [List.getD_eq_getElem _ _ hj]
        exact List.getElem_mem hj
      exact (hout _ hmm).1
  · intro f hf hact c hc hcf
    rcases List.mem_append.mp hf with hofl | hnfl
    · have hffid : f.file_id ∈ fileIds s := List.mem_map.mpr ⟨f, hofl, rfl⟩
      have hfne : f.file_id ≠ fid := fun he => hfresh (he ▸ hffid)
      rcases List.mem_append.mp hc with hoc | hnc
      · have hnil : syncedNodesOf (buildPlacements fid 0 assigns) c.chunk_id = [] := by
          apply syncedNodesOf_eq_nil_of_no_chunk
          intro p hp he
          obtain ⟨-, j, hj, hcid2⟩ := buildPlacements_mem fid assigns 0 p hp
          exact old_chunks_no_new_cid s fid h2 hfresh c hoc (0 + j)
            (by rw [← he, hcid2])
        show (syncedNodesOf (s.placements ++ buildPlacements fid 0 assigns)
          c.chunk_id).length = s.replication_factor
        rw [syncedNodesOf_append, hnil, List.append_nil]
        exact h6 f hofl hact c hoc hcf
      · obtain ⟨pc, hpc, rfl⟩ := List.mem_map.mp hnc
        exact absurd hcf.symm hfne
    · have hfeq : f = ⟨fid, pieces.length, FileStatus.Active⟩ :=
        List.mem_singleton.mp hnfl
      subst hfeq
      rcases List.mem_append.mp hc with hoc | hnc
      · obtain ⟨-, hfm⟩ := h2 c hoc
        rw [hcf] at hfm
        exact absurd hfm hfresh
      · obtain ⟨pc, hpc, rfl⟩ := List.mem_map.mp hnc
        have hjb : pc.index < assigns.length := by
          rw [houtlen]
          exact hpcIdx pc hpc
        have hnilold : syncedNodesOf s.placements (Nat.pair fid pc.index) = [] := by
          apply syncedNodesOf_eq_nil_of_no_chunk
          intro p hp he
          exact old_placements_no_new_cid s fid h2 h4 hfresh p hp pc.index he
        show (syncedNodesOf (s.placements ++ buildPlacements fid 0 assigns)
          (Nat.pair fid pc.index)).length = s.replication_factor
        rw [syncedNodesOf_append, hnilold, List.nil_append]
        have hbp := syncedNodesOf_buildPlacements_at fid assigns 0 pc.index hjb
        rw [Nat.zero_add] at hbp
        rw [hbp]
        have hmm : assigns.getD pc.index [] ∈ assigns := by
          rw [List.getD_eq_getElem _ _ hjb]
          exact List.getElem_mem hjb
        exact (hout _ hmm).2

theorem uploadStep_ok_inv (s : SysState) (fid : Nat) (bs : List Nat) (cs : Nat)
    (ok : Nat → Nat → Bool) (s2 : SysState) (hInv : SysInv s)
    (h : uploadStep s fid bs cs ok = Except.ok s2) : SysInv s2 := by
  rw [uploadStep.eq_def] at h
  by_cases hdup : (s.files.any (fun f => f.file_id == fid)) = true
  · rw [if_pos hdup] at h
    exact absurd h (by simp)
  · rw [if_neg hdup] at h
    have hfresh : fid ∉ fileIds s := by
      intro hmem
      obtain ⟨f, hf, hfe⟩ := List.mem_map.mp hmem
      exact hdup (List.any_eq_true.mpr ⟨f, hf, by simp [hfe]⟩)
    cases hplan : planRoundRobin (split bs cs).length s.replication_factor
        (healthyIds s) with
    | error e =>
        rw [hplan] at h
        dsimp only [] at h
        exact absurd h (by simp)
    | ok plan =>
        rw [hplan] at h
        dsimp only [] at h
        cases hassign : assignAll (sortNodes (healthyIds s)) ok plan.enum with
        | none =>
            rw [hassign] at h
            dsimp only [] at h
            exact absurd h (by simp)
        | some assigns =>
            rw [hassign] at h
            dsimp only [] at h
            obtain rfl := Except.ok.inj h
            have hplanFacts := planRoundRobin_mem_length _ _ _ _ hplan
            have hassignFacts := assignAll_some _ ok plan.enum assigns hassign
            have houtlen : assigns.length = (split bs cs).length := by
              rw [hassignFacts.1]
              simpa using hplanFacts.1
            have hout : ∀ out ∈ assigns,
                out.Nodup ∧ out.length = s.replication_factor := by
              intro out hm
              obtain ⟨pr, hpr, hch⟩ := hassignFacts.2 out hm
              obtain ⟨hnd, hlen2⟩ := assignChunk_some _ _ _ _ _ hch
              have hpl : pr.2 ∈ plan := mem_enumFrom_snd plan 0 pr hpr
              exact ⟨hnd, by rw [hlen2, hplanFacts.2 pr.2 hpl]⟩
            exact inv_upload_commit s fid (split bs cs) assigns
              ⟨hInv.1, hInv.2.1, hInv.2.2.1, hInv.2.2.2.1, hInv.2.2.2.2.1,
                hInv.2.2.2.2.2⟩
              hfresh (split_indices bs cs) houtlen hout

theorem markDegraded_inv (s : SysState) (cid : Nat) (hInv : SysInv s) :
    SysInv (markDegraded s cid) := by
  obtain ⟨h1, h2, h3, h4, h5, h6⟩ := hInv
  rw [markDegraded.eq_def]
  cases hfind : s.chunks.find? (fun c => c.chunk_id == cid) with
  | none =>
      dsimp only []
      exact ⟨h1, h2, h3, h4, h5, h6⟩
  | some c0 =>
      dsimp only []
      have hFid : fileIds { s with files := s.files.map (fun f =>
          if f.file_id == c0.file_id then { f with fstatus := FileStatus.Degraded }
          else f) } = fileIds s := by
        simp only [fileIds, List.map_map]
        apply List.map_congr_left
        intro f hf
        by_cases he : f.file_id = c0.file_id
        · simp [he]
        · simp [he]
      refine ⟨?_, ?_, h3, h4, h5, ?_⟩
      · rw [hFid]
        exact h1
      · intro c hc
        obtain ⟨hpair, hfm⟩ := h2 c hc
        rw [hFid]
        exact ⟨hpair, hfm⟩
      · intro f hf hact c hc hcf
        obtain ⟨g, hg, hge⟩ := List.mem_map.mp hf
        by_cases he : g.file_id = c0.file_id
        · rw [← hge] at hact
          rw [if_pos (by simp [he])] at hact
          exact absurd hact (by simp)
        · rw [if_neg (by simp [he])] at hge
          subst hge
          exact h6 g hg hact c hc hcf

theorem recoverChunk_inv (nid : Nat) (s : SysState) (cid : Nat) (hInv : SysInv s) :
    SysInv (recoverChunk nid s cid) ∧
    ∀ x, (syncedNodesOf (recoverChunk nid s cid).placements x).length
      = (syncedNodesOf s.placements x).length := by
  rw [recoverChunk.eq_def]
  by_cases hcond : (hasSyncedOn s cid nid
      && decide ((liveSyncedNodes s cid).length < s.replication_factor)) = true
  · rw [if_pos hcond]
    have hhas : hasSyncedOn s cid nid = true := by
      simp only [Bool.and_eq_true] at hcond
      exact hcond.1
    by_cases hempty : (liveSyncedNodes s cid).isEmpty = true
    · rw [if_pos hempty]
      refine ⟨markDegraded_inv s cid hInv, ?_⟩
      intro x
      rw [markDegraded.eq_def]
      cases hfind : s.chunks.find? (fun c => c.chunk_id == cid) with
      | none => rfl
      | some c0 => rfl
    · rw [if_neg hempty]
      cases hfind : (sortNodes (healthyIds s)).find?
          (fun n => !((placNodes s.placements cid).contains n)) with
      | none =>
          dsimp only []
          exact ⟨hInv, fun x => rfl⟩
      | some repl =>
          dsimp only []
          have hrepl : repl ∉ placNodes s.placements cid := by
            have hp := List.find?_some hfind
            have hcf : (placNodes s.placements cid).contains repl = false := by
              cases hc : (placNodes s.placements cid).contains repl
              · rfl
              · rw [hc] at hp
                simp at hp
            exact not_mem_of_contains_eq_false hcf
          obtain ⟨h1, h2, h3, h4, h5, h6⟩ := hInv
          have hcidmem : cid ∈ chunkIds s :=
            chunk_mem_of_hasSyncedOn s cid nid h4 hhas
          have hnodcid := h5 cid hcidmem
          have hnidmem : nid ∈ syncedNodesOf s.placements cid :=
            mem_syncedNodesOf_of_hasSyncedOn s cid nid hhas
          have hndsync : (syncedNodesOf s.placements cid).Nodup :=
            List.Nodup.sublist (syncedNodesOf_sublist s.placements cid) hnodcid
          have hcount : ∀ x, (syncedNodesOf
              (s.placements.filter (removeP cid nid)
                ++ [⟨cid, repl, PState.Synced⟩]) x).length
              = (syncedNodesOf s.placements x).length := by
            intro x
            rw [syncedNodesOf_append]
            by_cases hx : x = cid
            · subst hx
              rw [syncedNodesOf_filter_removeP_eq]
              have hsingle : syncedNodesOf [⟨x, repl, PState.Synced⟩] x = [repl] := by
                rw [syncedNodesOf_cons, if_pos (by simp)]
                rfl
              rw [hsingle, List.length_append,
                filter_ne_length _ nid hndsync hnidmem]
              have hpos := List.length_pos.mpr (List.ne_nil_of_mem hnidmem)
              simp only [List.length_singleton]
              omega
            · rw [syncedNodesOf_filter_removeP_ne _ _ _ _ hx]
              have hnil : syncedNodesOf [⟨cid, repl, PState.Synced⟩] x = [] := by
                rw [syncedNodesOf_cons, if_neg (by simp [Ne.symm hx])]
                rfl
              rw [hnil, List.append_nil]
          refine ⟨⟨h1, h2, h3, ?_, ?_, ?_⟩, hcount⟩
          · intro p hp
            rcases List.mem_append.mp hp with hold | hnew
            · exact h4 p (List.mem_filter.mp hold).1
            · rw [List.mem_singleton] at hnew
              subst hnew
              exact hcidmem
          · intro x hx
            rw [placNodes_append]
            by_cases hxc : x = cid
            · subst hxc
              rw [placNodes_filter_removeP_eq]
              have hsingle : placNodes [⟨x, repl, PState.Synced⟩] x = [repl] := by
                rw [placNodes_cons, if_pos (by simp)]
                rfl
              rw [hsingle, List.nodup_append]
              refine ⟨List.Nodup.sublist (List.filter_sublist _) (h5 x hx),
                List.nodup_singleton repl, ?_⟩
              intro a ha hb
              rw [List.mem_singleton] at hb
              subst hb
              exact hrepl (List.mem_of_mem_filter ha)
            · rw [placNodes_filter_removeP_ne _ _ _ _ hxc]
              have hnil : placNodes [⟨cid, repl, PState.Synced⟩] x = [] := by
                rw [placNodes_cons, if_neg (by simp [Ne.symm hxc])]
                rfl
              rw [hnil, List.append_nil]
              exact h5 x hx
          · intro f hf hact c hc hcf
            rw [show (syncedNodesOf (s.placements.filter (removeP cid nid)
                ++ [⟨cid, repl, PState.Synced⟩]) c.chunk_id).length
                = (syncedNodesOf s.placements c.chunk_id).length
              from hcount c.chunk_id]
            exact h6 f hf hact c hc hcf
  · rw [if_neg hcond]
    exact ⟨hInv, fun x => rfl⟩

theorem recoverFold_inv (nid : Nat) :
    ∀ (cids : List Nat) (s : SysState), SysInv s →
      SysInv (cids.foldl (recoverChunk nid) s) ∧
      ∀ x, (syncedNodesOf (cids.foldl (recoverChunk nid) s).placements x).length
        = (syncedNodesOf s.placements x).length := by
  intro cids
  induction cids with
  | nil => intro s h; exact ⟨h, fun x => rfl⟩
  | cons c t ih =>
      intro s h
      rw [List.foldl_cons]
      obtain ⟨hi, hc⟩ := recoverChunk_inv nid s c h
      obtain ⟨hi2, hc2⟩ := ih (recoverChunk nid s c) hi
      exact ⟨hi2, fun x => (hc2 x).trans (hc x)⟩

theorem recoverChunk_rf (nid : Nat) (s : SysState) (cid : Nat) :
    (recoverChunk nid s cid).replication_factor = s.replication_factor := by
  rw [recoverChunk.eq_def]
  split
  · split
    · rw [markDegraded.eq_def]
      split
      · rfl
      · rfl
    · split
      · rfl
      · rfl
  · rfl

theorem recoverFold_rf (nid : Nat) :
    ∀ (cids : List Nat) (s : SysState),
      (cids.foldl (recoverChunk nid) s).replication_factor = s.replication_factor := by
  intro cids
  induction cids with
  | nil => intro s; rfl
  | cons c t ih =>
      intro s
      rw [List.foldl_cons, ih (recoverChunk nid s c), recoverChunk_rf]

theorem step_recover_counts (nid : Nat) (s : SysState) (h : SysInv s) :
    SysInv (step (Op.recover nid) s) ∧
    ∀ x, (syncedNodesOf (step (Op.recover nid) s).placements x).length
      = (syncedNodesOf s.placements x).length :=
  recoverFold_inv nid (affectedChunks s nid) s h

theorem step_recover_rf (nid : Nat) (s : SysState) :
    (step (Op.recover nid) s).replication_factor = s.replication_factor :=
  recoverFold_rf nid (affectedChunks s nid) s

theorem step_inv (op : Op) (s : SysState) (h : SysInv s) : SysInv (step op s) := by
  cases op with
  | upload fid bs cs ok =>
      cases hu : uploadStep s fid bs cs ok with
      | ok s2 =>
          have hst : step (Op.upload fid bs cs ok) s = s2 := by
            simp only [step, hu]
          rw [hst]
          exact uploadStep_ok_inv s fid bs cs ok s2 h hu
      | error e =>
          have hst : step (Op.upload fid bs cs ok) s = s := by
            simp only [step, hu]
          rw [hst]
          exact h
  | download fid => exact h
  | statusQuery => exact h
  | nodeOffline nid => exact h
  | nodeOnline nid => exact h
  | heartbeatRecv nid now => exact h
  | monitorTick interval timeout now => exact h
  | recover nid => exact (step_recover_counts nid s h).1

theorem run_inv : ∀ (ops : List Op) (s : SysState), SysInv s → SysInv (run ops s) := by
  intro ops
  induction ops with
  | nil => intro s h; exact h
  | cons op t ih =>
      intro s h
      exact ih (step op s) (step_inv op s h)

/-- Claim C2: in every execution of the system from an invariant-satisfying
state (in particular the empty initial store), after every operation every
chunk of every `Active` file has at least `replication_factor` `Synced`
placements, and no two placements of the same chunk reference the same
node. -/
theorem c2_active_replication_invariant (ops : List Op) (s0 : SysState)
    (hInv : SysInv s0) :
    ∀ f ∈ (run ops s0).files, f.fstatus = FileStatus.Active →
      ∀ c ∈ (run ops s0).chunks, c.file_id = f.file_id →
        (run ops s0).replication_factor
            ≤ (syncedNodesOf (run ops s0).placements c.chunk_id).length ∧
        (placNodes (run ops s0).placements c.chunk_id).Nodup := by
  intro f hf hact c hc hcf
  obtain ⟨h1, h2, h3, h4, h5, h6⟩ := run_inv ops s0 hInv
  constructor
  · exact le_of_eq (h6 f hf hact c hc hcf).symm
  · exact h5 c.chunk_id (List.mem_map.mpr ⟨c, hc, rfl⟩)

theorem c2_active_replication_invariant_witness :
    2 ≤ (syncedNodesOf (run [Op.upload 1 [9, 9, 9] 2 (fun _ _ => true)]
        ⟨2, [], [], [], [⟨1, NodeStatus.Healthy, 0⟩, ⟨2, NodeStatus.Healthy, 0⟩,
          ⟨3, NodeStatus.Healthy, 0⟩]⟩).placements (Nat.pair 1 0)).length ∧
    (placNodes (run [Op.upload 1 [9, 9, 9] 2 (fun _ _ => true)]
        ⟨2, [], [], [], [⟨1, NodeStatus.Healthy, 0⟩, ⟨2, NodeStatus.Healthy, 0⟩,
          ⟨3, NodeStatus.Healthy, 0⟩]⟩).placements (Nat.pair 1 0)).Nodup := by
  constructor
  · exact (c2_active_replication_invariant [Op.upload 1 [9, 9, 9] 2 (fun _ _ => true)]
      ⟨2, [], [], [], [⟨1, NodeStatus.Healthy, 0⟩, ⟨2, NodeStatus.Healthy, 0⟩,
        ⟨3, NodeStatus.Healthy, 0⟩]⟩ (by decide)
      ⟨1, 2, FileStatus.Active⟩ (by decide) rfl
      ⟨Nat.pair 1 0, 1, 0, digest [9, 9]⟩ (by decide) rfl).1
  · exact (c2_active_replication_invariant [Op.upload 1 [9, 9, 9] 2 (fun _ _ => true)]
      ⟨2, [], [], [], [⟨1, NodeStatus.Healthy, 0⟩, ⟨2, NodeStatus.Healthy, 0⟩,
        ⟨3, NodeStatus.Healthy, 0⟩]⟩ (by decide)
      ⟨1, 2, FileStatus.Active⟩ (by decide) rfl
      ⟨Nat.pair 1 0, 1, 0, digest [9, 9]⟩ (by decide) rfl).2

/-- Claim C3: recovery is idempotent for a single node-failure event —
after `node_offline nid` (the failure), running the Recovery Engine once or
twice for that failure leaves every chunk's total `Synced`-replica count
exactly what the invariant prescribes: counts never change (so recovery
never produces more than `replication_factor` `Synced` replicas for any
chunk), and every chunk of every still-`Active` file holds exactly
`replication_factor` `Synced` replicas after both the first and the second
run. -/
theorem c3_recovery_idempotent (s : SysState) (nid : Nat) (hInv : SysInv s) :
    (∀ x, (syncedNodesOf (step (Op.recover nid)
        (step (Op.nodeOffline nid) s)).placements x).length
      = (syncedNodesOf s.placements x).length) ∧
    (∀ x, (syncedNodesOf (step (Op.recover nid) (step (Op.recover nid)
        (step (Op.nodeOffline nid) s))).placements x).length
      = (syncedNodesOf s.placements x).length) ∧
    (∀ f ∈ (step (Op.recover nid) (step (Op.nodeOffline nid) s)).files,
      f.fstatus = FileStatus.Active →
      ∀ c ∈ (step (Op.recover nid) (step (Op.nodeOffline nid) s)).chunks,
        c.file_id = f.file_id →
        (syncedNodesOf (step (Op.recover nid)
          (step (Op.nodeOffline nid) s)).placements c.chunk_id).length
          = s.replication_factor) ∧
    (∀ f ∈ (step (Op.recover nid) (step (Op.recover nid)
        (step (Op.nodeOffline nid) s))).files,
      f.fstatus = FileStatus.Active →
      ∀ c ∈ (step (Op.recover nid) (step (Op.recover nid)
          (step (Op.nodeOffline nid) s))).chunks,
        c.file_id = f.file_id →
        (syncedNodesOf (step (Op.recover nid) (step (Op.recover nid)
          (step (Op.nodeOffline nid) s))).placements c.chunk_id).length
          = s.replication_factor) := by
  have hF : SysInv (step (Op.nodeOffline nid) s) := step_inv (Op.nodeOffline nid) s hInv
  have hPF : (step (Op.nodeOffline nid) s).placements = s.placements := rfl
  have hRF : (step (Op.nodeOffline nid) s).replication_factor
      = s.replication_factor := rfl
  obtain ⟨hI1, hC1⟩ := step_recover_counts nid (step (Op.nodeOffline nid) s) hF
  obtain ⟨hI2, hC2⟩ := step_recover_counts nid _ hI1
  refine ⟨?_, ?_, ?_, ?_⟩
  · intro x
    rw [hC1 x, hPF]
  · intro x
    rw [hC2 x, hC1 x, hPF]
  · intro f hf hact c hc hcf
    obtain ⟨-, -, -, -, -, h6⟩ := hI1
    rw [h6 f hf hact c hc hcf, step_recover_rf, hRF]
  · intro f hf hact c hc hcf
    obtain ⟨-, -, -, -, -, h6⟩ := hI2
    rw [h6 f hf hact c hc hcf, step_recover_rf, step_recover_rf, hRF]

/-- Claim C4: upload is atomic on failure — when some required replica push
fails irrecoverably (the push/retry pass cannot place every replica), the
upload fails with `pushFailed`, the state is completely unchanged, and no
`File` record for the attempted `file_id` (hence no `Chunk` or
`ReplicaPlacement` of it) is visible in the metadata store afterward. -/
theorem c4_upload_atomic_on_push_failure (s : SysState) (fid : Nat)
    (bs : List Nat) (cs : Nat) (ok : Nat → Nat → Bool) (plan : List (List Nat))
    (hfresh : ∀ f ∈ s.files, f.file_id ≠ fid)
    (hplan : planRoundRobin (split bs cs).length s.replication_factor
      (healthyIds s) = Except.ok plan)
    (hassign : assignAll (sortNodes (healthyIds s)) ok plan.enum = none) :
    uploadStep s fid bs cs ok = Except.error UploadError.pushFailed ∧
    step (Op.upload fid bs cs ok) s = s ∧
    (run [Op.upload fid bs cs ok] s).files.find? (fun f => f.file_id == fid)
      = none := by
  have hany : s.files.any (fun f => f.file_id == fid) = false := by
    rw [List.any_eq_false]
    intro f hf
    simp [hfresh f hf]
  have hup : uploadStep s fid bs cs ok = Except.error UploadError.pushFailed := by
    rw [uploadStep.eq_def, if_neg (by simp [hany]), hplan]
    dsimp only []
    rw [hassign]
  have hstep : step (Op.upload fid bs cs ok) s = s := by
    simp only [step, hup]
  refine ⟨hup, hstep, ?_⟩
  rw [show run [Op.upload fid bs cs ok] s = step (Op.upload fid bs cs ok) s
    from rfl, hstep]
  rw [List.find?_eq_none]
  intro f hf
  simp [hfresh f hf]

theorem c4_upload_atomic_on_push_failure_witness :
    uploadStep ⟨2, [], [], [], [⟨1, NodeStatus.Healthy, 0⟩,
        ⟨2, NodeStatus.Healthy, 0⟩, ⟨3, NodeStatus.Healthy, 0⟩]⟩
        7 [5] 1 (fun _ _ => false) = Except.error UploadError.pushFailed ∧
    step (Op.upload 7 [5] 1 (fun _ _ => false))
        ⟨2, [], [], [], [⟨1, NodeStatus.Healthy, 0⟩,
          ⟨2, NodeStatus.Healthy, 0⟩, ⟨3, NodeStatus.Healthy, 0⟩]⟩
      = ⟨2, [], [], [], [⟨1, NodeStatus.Healthy, 0⟩,
          ⟨2, NodeStatus.Healthy, 0⟩, ⟨3, NodeStatus.Healthy, 0⟩]⟩ ∧
    (run [Op.upload 7 [5] 1 (fun _ _ => false)]
        ⟨2, [], [], [], [⟨1, NodeStatus.Healthy, 0⟩,
          ⟨2, NodeStatus.Healthy, 0⟩, ⟨3, NodeStatus.Healthy, 0⟩]⟩).files.find?
      (fun f => f.file_id == 7) = none :=
  c4_upload_atomic_on_push_failure
    ⟨2, [], [], [], [⟨1, NodeStatus.Healthy, 0⟩,
      ⟨2, NodeStatus.Healthy, 0⟩, ⟨3, NodeStatus.Healthy, 0⟩]⟩
    7 [5] 1 (fun _ _ => false) [[1, 2]] (by simp) rfl rfl

theorem c3_recovery_idempotent_witness :
    (syncedNodesOf (step (Op.recover 2) (step (Op.recover 2)
        (step (Op.nodeOffline 2)
          ⟨2, [⟨1, 2, FileStatus.Active⟩],
            [⟨Nat.pair 1 0, 1, 0, 0⟩, ⟨Nat.pair 1 1, 1, 1, 0⟩],
            [⟨Nat.pair 1 0, 1, PState.Synced⟩, ⟨Nat.pair 1 0, 2, PState.Synced⟩,
              ⟨Nat.pair 1 1, 2, PState.Synced⟩, ⟨Nat.pair 1 1, 3, PState.Synced⟩],
            [⟨1, NodeStatus.Healthy, 0⟩, ⟨2, NodeStatus.Healthy, 0⟩,
              ⟨3, NodeStatus.Healthy, 0⟩]⟩))).placements (Nat.pair 1 0)).length
      = (syncedNodesOf ([⟨Nat.pair 1 0, 1, PState.Synced⟩,
          ⟨Nat.pair 1 0, 2, PState.Synced⟩, ⟨Nat.pair 1 1, 2, PState.Synced⟩,
          ⟨Nat.pair 1 1, 3, PState.Synced⟩] : List PlacementRec)
          (Nat.pair 1 0)).length ∧
    (syncedNodesOf (step (Op.recover 2) (step (Op.nodeOffline 2)
        ⟨2, [⟨1, 2, FileStatus.Active⟩],
          [⟨Nat.pair 1 0, 1, 0, 0⟩, ⟨Nat.pair 1 1, 1, 1, 0⟩],
          [⟨Nat.pair 1 0, 1, PState.Synced⟩, ⟨Nat.pair 1 0, 2, PState.Synced⟩,
            ⟨Nat.pair 1 1, 2, PState.Synced⟩, ⟨Nat.pair 1 1, 3, PState.Synced⟩],
          [⟨1, NodeStatus.Healthy, 0⟩, ⟨2, NodeStatus.Healthy, 0⟩,
            ⟨3, NodeStatus.Healthy, 0⟩]⟩)).placements (Nat.pair 1 0)).length = 2 :=
  ⟨(c3_recovery_idempotent
      ⟨2, [⟨1, 2, FileStatus.Active⟩],
        [⟨Nat.pair 1 0, 1, 0, 0⟩, ⟨Nat.pair 1 1, 1, 1, 0⟩],
        [⟨Nat.pair 1 0, 1, PState.Synced⟩, ⟨Nat.pair 1 0, 2, PState.Synced⟩,
          ⟨Nat.pair 1 1, 2, PState.Synced⟩, ⟨Nat.pair 1 1, 3, PState.Synced⟩],
        [⟨1, NodeStatus.Healthy, 0⟩, ⟨2, NodeStatus.Healthy, 0⟩,
          ⟨3, NodeStatus.Healthy, 0⟩]⟩ 2 (by decide)).2.1 (Nat.pair 1 0),
   (c3_recovery_idempotent
      ⟨2, [⟨1, 2, FileStatus.Active⟩],
        [⟨Nat.pair 1 0, 1, 0, 0⟩, ⟨Nat.pair 1 1, 1, 1, 0⟩],
        [⟨Nat.pair 1 0, 1, PState.Synced⟩, ⟨Nat.pair 1 0, 2, PState.Synced⟩,
          ⟨Nat.pair 1 1, 2, PState.Synced⟩, ⟨Nat.pair 1 1, 3, PState.Synced⟩],
        [⟨1, NodeStatus.Healthy, 0⟩, ⟨2, NodeStatus.Healthy, 0⟩,
          ⟨3, NodeStatus.Healthy, 0⟩]⟩ 2 (by decide)).2.2.1
      ⟨1, 2, FileStatus.Active⟩ (by decide) rfl
      ⟨Nat.pair 1 0, 1, 0, 0⟩ (by decide) rfl⟩
